import Mathlib

/-!
# Verification of the CDS-bond basis pipeline

A shallow embedding of the core of the `p12_siriwardane_sunderam_wallen_2023`
repository: schema detection and rating-flag derivation
(`merge_cds_bond.detect_column_format`, `derive_size_ig_jk`), the RED-code
identifier linker (`merge_red_code_into_bond_treas`), the treasury yield
matcher (`merge_bond_treasury_redcode.merge_treasuries_into_bonds`), the
per-(entity, date) cubic-spline curve fitter and spread evaluator
(`merge_cds_bond.merge_cds_into_bonds`), the basis calculator
(`process_final_product.process_cb_spread`), and the non-aggregated FTSFR
output path (`create_ftsfr_datasets.main`).

Conventions of the embedding:

* pandas dataframes become `List` of records; a pandas `NaN`-able column
  becomes an `Option` field where missingness is semantically relevant;
* dates are abstract day numbers (`ℕ`); all monetary/rate columns are exact
  rationals (`ℚ`), so "within floating-point tolerance" statements become
  exact equalities;
* a Python function that can raise becomes an `Except` / `Option` value;
* `drop_duplicates` / `duplicated` keep the first occurrence, as pandas does.
-/

set_option maxRecDepth 8000
set_option maxHeartbeats 1600000

/- Batteries marks the `Rat` field operations `@[irreducible]`; restore
reducibility locally so that concrete witness computations over exact
rationals can be closed by `decide`. -/
attribute [local semireducible] Rat.mul Rat.inv Rat.add Rat.sub Rat.ofScientific

namespace CdsBondBasis

/-! ## Generic list helpers (pandas primitives)

`dedupFirstAux` is pandas `drop_duplicates(keep="first")`: the first
occurrence of each value is kept, in order.  `insertQ`/`insertionSortQ`
(and the pair versions keyed on the first component) are an executable
sort used for the pandas `median` and for `np.argsort` of the spline
knots; on pairwise-distinct keys every sort coincides with `argsort`.
-/

def dedupFirstAux {α : Type} [DecidableEq α] (seen : List α) : List α → List α
  | [] => []
  | x :: r => if x ∈ seen then dedupFirstAux seen r else x :: dedupFirstAux (x :: seen) r

def dedupFirst {α : Type} [DecidableEq α] (l : List α) : List α :=
  dedupFirstAux [] l

def insertQ (x : ℚ) : List ℚ → List ℚ
  | [] => [x]
  | y :: r => if x ≤ y then x :: y :: r else y :: insertQ x r

def insertionSortQ : List ℚ → List ℚ
  | [] => []
  | x :: r => insertQ x (insertionSortQ r)

def insertPair (p : ℚ × ℚ) : List (ℚ × ℚ) → List (ℚ × ℚ)
  | [] => [p]
  | q :: r => if p.1 ≤ q.1 then p :: q :: r else q :: insertPair p r

/-- Sort a list of (x, y) points by x ascending: the `np.argsort` step of the
curve fitter. -/
def sortPairs : List (ℚ × ℚ) → List (ℚ × ℚ)
  | [] => []
  | p :: r => insertPair p (sortPairs r)

/-- pandas `Series.median()` over exact rationals: middle element of the
sorted values, or the mean of the two middle elements. -/
def medianQ (l : List ℚ) : ℚ :=
  let s := insertionSortQ l
  let n := s.length
  if n = 0 then 0
  else if n % 2 = 1 then s.getD (n / 2) 0
  else (s.getD (n / 2 - 1) 0 + s.getD (n / 2) 0) / 2

/-! ## Format Normalizer — `merge_cds_bond.detect_column_format` -/

/-- The column-mapping configuration returned by `detect_column_format`. -/
structure ColumnConfig where
  format : String
  cs_col : String
  yield_col : String
  tmt_col : String
  tmt_to_days_factor : ℚ
  has_size_ig_jk : Bool
  rating_col : Option String
deriving DecidableEq, Repr

/-- `merge_cds_bond.detect_column_format`: the bond table is represented by
its list of column names.  Old format (column `CS` present): time to maturity
`tmt` is in months, multiplied by 30 to get days.  New format (column `cs`
present): `tmat` is in years, multiplied by 365.  Neither present: the
`ValueError` ("Could not detect data format") — the `SchemaError` of the
spec — is raised, modelled by `Except.error`. -/
def detect_column_format (cols : List String) : Except String ColumnConfig :=
  if "CS" ∈ cols then
    Except.ok ⟨"old", "CS", "BOND_YIELD", "tmt", 30, true, none⟩
  else if "cs" ∈ cols then
    Except.ok ⟨"new", "cs", "ytm", "tmat", 365, false, some "spc_rat"⟩
  else
    Except.error "Could not detect data format"

/-! ## Format Normalizer — `merge_cds_bond.derive_size_ig_jk` -/

/-- pandas elementwise `series <= c` on a possibly-missing value: a missing
value (`NaN`) compares `False`. -/
def pandasLe (x : Option ℚ) (c : ℚ) : Bool :=
  match x with
  | some v => decide (v ≤ c)
  | none => false

/-- pandas elementwise `series > c`; `NaN` compares `False`. -/
def pandasGt (x : Option ℚ) (c : ℚ) : Bool :=
  match x with
  | some v => decide (c < v)
  | none => false

/-- One row of `merge_cds_bond.derive_size_ig_jk`: from the numeric rating
compute `size_ig = float(rating <= 10)` and `size_jk = float(rating > 10)`,
then overwrite both with `NaN` (`none`) on the rows where the rating is
missing (`df.loc[df[rating_col].isna(), ...] = np.nan`).  Returns the pair
`(size_ig, size_jk)`. -/
def derive_ig_jk_row (rating : Option ℚ) : Option ℚ × Option ℚ :=
  let ig : ℚ := if pandasLe rating 10 then 1 else 0
  let jk : ℚ := if pandasGt rating 10 then 1 else 0
  match rating with
  | none => (none, none)
  | some _ => (some ig, some jk)

/-- `derive_size_ig_jk` over the whole rating column. -/
def derive_size_ig_jk (ratings : List (Option ℚ)) : List (Option ℚ × Option ℚ) :=
  ratings.map derive_ig_jk_row

/-! ## Identifier Linker — `merge_red_code_into_bond_treas`

The RED mapping table (`red_c_df`): the code selects the `obl_cusip` and
`redcode` columns, drops rows where either is missing, derives
`issuer_cusip = obl_cusip[:6]`, and deduplicates to unique
`(issuer_cusip, redcode)` pairs.  Bonds are then inner-joined on
`issuer_cusip`, itself the first 6 characters of the bond's own `cusip`
(`merge_bond_treasury_redcode.merge_red_code_into_bond_treas`; the
`merge_cds_bond` variant prepares the mapping identically and joins on a
pre-existing `issuer_cusip` column). -/

/-- A row of the RED mapping table; only the two columns the code keeps.
Remaining columns (`ticker`, `isin`, `tier`) are dropped by the column
selection and never read. -/
structure RedRow where
  obl_cusip : Option String
  redcode : Option String
deriving DecidableEq, Repr

/-- The prepared mapping: dropna on both columns, take the 6-character
issuer key, deduplicate keeping first occurrences. -/
def prepareRed (rows : List RedRow) : List (String × String) :=
  let dropped := rows.filterMap fun r =>
    match r.obl_cusip, r.redcode with
    | some o, some c => some (o, c)
    | _, _ => none
  dedupFirst (dropped.map fun p => (p.1.take 6, p.2))

/-- A bond/treasury row entering the identifier linker.  Besides the `cusip`
used for the join the code only carries the other columns through, so a
date and a yield stand in for the payload. -/
structure BondT where
  cusip : String
  date : ℕ
  yld : ℚ
deriving DecidableEq, Repr

/-- `merge_red_code_into_bond_treas`: inner join of bonds with the prepared
mapping on the issuer key.  pandas merge keeps left order and, per left row,
every matching right row; the output row carries the bond, the issuer key
and the matched RED code. -/
def merge_red_code_into_bond_treas (bonds : List BondT) (reds : List RedRow) :
    List (BondT × String × String) :=
  let mapping := prepareRed reds
  bonds.flatMap fun b =>
    (mapping.filter fun m => m.1 = b.cusip.take 6).map fun m => (b, m.1, m.2)

/-! ## Treasury Yield Matcher — `merge_treasuries_into_bonds` -/

/-- A treasury row: maturity date `tmatdt`, yield `treas_yld` (possibly
missing), quote date `mcaldt`. -/
structure TreasRow where
  tmatdt : ℕ
  treas_yld : Option ℚ
  mcaldt : ℕ
deriving DecidableEq, Repr

/-- A corporate bond row entering the treasury matcher, with the columns the
function carries through. -/
structure BondRow9 where
  cusip : String
  company_symbol : String
  date : ℕ
  maturity : ℕ
  amount_outstanding : ℚ
  yld : ℚ
  rating : ℚ
  price_eom : ℚ
  t_spread : ℚ
deriving DecidableEq, Repr

/-- `treas_df.groupby("tmatdt")["treas_yld"].first()` evaluated at one date:
the first non-missing yield among the rows with that exact maturity date
(pandas `GroupBy.first` skips `NaN`). -/
def treasYieldMap (treas : List TreasRow) (d : ℕ) : Option ℚ :=
  ((treas.filter fun t => t.tmatdt = d).filterMap fun t => t.treas_yld).head?

/-- `merge_bond_treasury_redcode.merge_treasuries_into_bonds`: map each
bond's maturity date through the first-wins yield map, then
`dropna(subset=["treas_yld"])`.  The `day_window` parameter is accepted, as
in the source, and — as in the source — never read. -/
def merge_treasuries_into_bonds (bonds : List BondRow9) (treas : List TreasRow)
    (day_window : ℕ) : List (BondRow9 × ℚ) :=
  let _ := day_window
  (bonds.map fun b => (b, treasYieldMap treas b.maturity)).filterMap
    fun p => p.2.map fun v => (p.1, v)

/-! ## CDS quotes and the curve fitter — `merge_cds_into_bonds`

A CDS quote row carries the columns of `markit_cds.parquet`
(`date, ticker, redcode, parspread, tenor, tier, country, year`).  The
embedding models the rows that survive the
`dropna(subset=["date", "parspread", "tenor", "redcode"])` step, so those
fields are total. -/

structure CDSQuote where
  date : ℕ
  ticker : String
  redcode : String
  parspread : ℚ
  tenor : String
  tier : String
  country : String
  year : ℕ
deriving DecidableEq, Repr

/-- The grouping key of the median collapse: `groupby` on
`cds_df.columns.difference(["parspread"])`, i.e. every column except the
spread. -/
def quoteKey (q : CDSQuote) : ℕ × String × String × String × String × String × ℕ :=
  (q.date, q.ticker, q.redcode, q.tenor, q.tier, q.country, q.year)

/-- First representative row of each `quoteKey` group, in order of first
appearance. -/
def firstByKeyAux (seen : List (ℕ × String × String × String × String × String × ℕ)) :
    List CDSQuote → List CDSQuote
  | [] => []
  | q :: r =>
    if quoteKey q ∈ seen then firstByKeyAux seen r
    else q :: firstByKeyAux (quoteKey q :: seen) r

/-- The median collapse (`c_df_avg`): one row per `quoteKey` group with
`parspread` replaced by the group's median spread. -/
def collapseMedian (cds : List CDSQuote) : List CDSQuote :=
  (firstByKeyAux [] cds).map fun q =>
    ⟨q.date, q.ticker, q.redcode,
      medianQ ((cds.filter fun q2 => quoteKey q2 = quoteKey q).map fun q2 => q2.parspread),
      q.tenor, q.tier, q.country, q.year⟩

/-- The `tenor_to_days` mapping.  Any tenor label outside the table maps to
`NaN` in the source (`Series.map` of a partial dict), modelled as `none`. -/
def tenor_to_days (t : String) : Option ℚ :=
  if t = "1Y" then some 365
  else if t = "3Y" then some (3 * 365)
  else if t = "5Y" then some (5 * 365)
  else if t = "7Y" then some (7 * 365)
  else if t = "10Y" then some (10 * 365)
  else none

/-- The median-collapsed rows of the `(redcode, date)` group. -/
def groupOf (cds : List CDSQuote) (red : String) (d : ℕ) : List CDSQuote :=
  (collapseMedian cds).filter fun q => q.redcode = red ∧ q.date = d

/-- `df_unique_count` for one group: the number of distinct tenor labels
(`groupby(["redcode", "date"])["tenor"].nunique()`). -/
def uniqueTenorCount (cds : List CDSQuote) (red : String) (d : ℕ) : ℕ :=
  ((groupOf cds red d).map fun q => q.tenor).dedup.length

/-! ### The cubic spline

Modelled from the spec: `scipy.interpolate.CubicSpline` is an external
library, absent from the repository.  Per spec §4.4 the fitted object is "a
natural cubic spline (not-a-knot or natural boundary)" that "must reproduce
smooth interpolation through all provided points exactly", and per §4.5
evaluation outside the knot range "must produce the cubic polynomial's
natural extension, not an error".  The embedding fits the natural-boundary
cubic spline over exact rationals: second derivatives at the knots solve the
standard tridiagonal system with zero end conditions (Thomas algorithm), and
each piece is the cubic Hermite form on `[xᵢ, xᵢ₊₁]`.  Per the library's
documented contract the constructor fails — the `except` branch of the
fitter — unless the knots are finite, at least two, and strictly
increasing. -/

/-- A fitted spline: the sorted knot points, each paired with its second
derivative. -/
structure Spline where
  pts : List ((ℚ × ℚ) × ℚ)
deriving DecidableEq, Repr

/-- The cubic piece on `[x0, x1]` with values `y0, y1` and second
derivatives `m0, m1`, evaluated at `t` (its natural extension for `t`
outside the interval). -/
def evalCubic (x0 y0 x1 y1 m0 m1 t : ℚ) : ℚ :=
  let h := x1 - x0
  let b := (y1 - y0) / h - h * (2 * m0 + m1) / 6
  y0 + b * (t - x0) + m0 / 2 * (t - x0) ^ 2 + (m1 - m0) / (6 * h) * (t - x0) ^ 3

/-- Piecewise evaluation: the piece `[xᵢ, xᵢ₊₁]` with `xᵢ ≤ t < xᵢ₊₁`,
clamped to the first piece below the range and to the last piece above it
(standard `PPoly` interval selection with extrapolation). -/
def evalPieces : List ((ℚ × ℚ) × ℚ) → ℚ → ℚ
  | ((x0, y0), m0) :: ((x1, y1), m1) :: rest, t =>
    if t < x1 ∨ rest = [] then evalCubic x0 y0 x1 y1 m0 m1 t
    else evalPieces (((x1, y1), m1) :: rest) t
  | [((_, y0), _)], _ => y0
  | [], _ => 0

def evalSpline (s : Spline) (t : ℚ) : ℚ :=
  evalPieces s.pts t

/-- Last element of a list, with a default for the empty list. -/
def lastD {α : Type} (d : α) : List α → α
  | [] => d
  | [x] => x
  | _ :: y :: r => lastD d (y :: r)

/-- The cubic polynomials of the spline's pieces, in knot order. -/
def piecesOf : List ((ℚ × ℚ) × ℚ) → List (ℚ → ℚ)
  | ((x0, y0), m0) :: (((x1, y1), m1) :: rest) =>
    (fun t => evalCubic x0 y0 x1 y1 m0 m1 t) :: piecesOf (((x1, y1), m1) :: rest)
  | _ => []

/-- The knot abscissas of a fitted spline. -/
def splineKnots (s : Spline) : List ℚ :=
  s.pts.map fun e => e.1.1

/-- The smallest knot (left end of the observed tenor range). -/
def headKnot (s : Spline) : ℚ :=
  (splineKnots s).headD 0

/-- The largest knot (right end of the observed tenor range). -/
def lastKnot (s : Spline) : ℚ :=
  lastD 0 (splineKnots s)

/-- The natural extension used below the observed range: the first piece's
cubic polynomial. -/
def firstPiecePoly (s : Spline) : ℚ → ℚ :=
  (piecesOf s.pts).headD fun _ => 0

/-- The natural extension used above the observed range: the last piece's
cubic polynomial. -/
def lastPiecePoly (s : Spline) : ℚ → ℚ :=
  lastD (fun _ => 0) (piecesOf s.pts)

/-- Consecutive differences (the knot spacings `h`). -/
def diffs : List ℚ → List ℚ
  | x0 :: x1 :: r => (x1 - x0) :: diffs (x1 :: r)
  | _ => []

/-- Consecutive secant slopes of the data points. -/
def slopes : List (ℚ × ℚ) → List ℚ
  | (x0, y0) :: (x1, y1) :: r => ((y1 - y0) / (x1 - x0)) :: slopes ((x1, y1) :: r)
  | _ => []

/-- Interior rows `(sub, diag, super, rhs)` of the natural-spline
tridiagonal system for the second derivatives. -/
def buildRows : List ℚ → List ℚ → List (ℚ × ℚ × ℚ × ℚ)
  | h0 :: h1 :: hr, s0 :: s1 :: sr =>
    (h0, 2 * (h0 + h1), h1, 6 * (s1 - s0)) :: buildRows (h1 :: hr) (s1 :: sr)
  | _, _ => []

/-- Thomas algorithm, forward sweep: produces the modified super-diagonal
and right-hand side. -/
def sweep (cp dp : ℚ) : List (ℚ × ℚ × ℚ × ℚ) → List (ℚ × ℚ)
  | [] => []
  | (a, b, c, d) :: rest =>
    let m := b - a * cp
    let c2 := c / m
    let d2 := (d - a * dp) / m
    (c2, d2) :: sweep c2 d2 rest

/-- Thomas algorithm, back substitution over the reversed forward sweep. -/
def backsub (xnext : ℚ) : List (ℚ × ℚ) → List ℚ
  | [] => []
  | (c2, d2) :: rest =>
    let x := d2 - c2 * xnext
    x :: backsub x rest

/-- Second derivatives of the natural cubic spline through `pts`: zero at
both ends, interior values from the tridiagonal solve. -/
def solveNaturalM (pts : List (ℚ × ℚ)) : List ℚ :=
  let rows := buildRows (diffs (pts.map Prod.fst)) (slopes pts)
  let interior := (backsub 0 (sweep 0 0 rows).reverse).reverse
  0 :: (interior ++ [0])

/-- Fit the natural cubic spline through the (already sorted) points. -/
def mkSpline (pts : List (ℚ × ℚ)) : Spline :=
  ⟨pts.zip (solveNaturalM pts)⟩

/-- `group["tenor_days"]` zipped with the spreads: `none` as soon as one
tenor label is unmapped (a `NaN` knot, rejected by the spline
constructor). -/
def tenorPts : List CDSQuote → Option (List (ℚ × ℚ))
  | [] => some []
  | q :: r =>
    match tenor_to_days q.tenor, tenorPts r with
    | some d, some ps => some ((d, q.parspread) :: ps)
    | _, _ => none

/-- Strictly-increasing test on a list of rationals (the spline
constructor's "strictly increasing sequence" check). -/
def strictIncBool : List ℚ → Bool
  | x0 :: x1 :: r => decide (x0 < x1) && strictIncBool (x1 :: r)
  | _ => true

/-- Attempt the spline fit for one group's rows: map tenors to day counts,
sort by day count, and construct the spline when the constructor's contract
holds (≥ 2 finite, strictly increasing knots); otherwise `none` — the
`except` branch that only records the aggregate warning. -/
def fitGroup (g : List CDSQuote) : Option Spline :=
  match tenorPts g with
  | none => none
  | some pts =>
    let sp := sortPairs pts
    if 2 ≤ sp.length ∧ strictIncBool (sp.map Prod.fst) = true
    then some (mkSpline sp) else none

/-- The curve fitter for one `(redcode, date)` key: the group is retained
only when it has at least 2 distinct tenors (`unique_tenor_count > 1`), and
its curve is the fitted spline when the fit succeeds. -/
def curveFor (cds : List CDSQuote) (red : String) (d : ℕ) : Option Spline :=
  if 2 ≤ uniqueTenorCount cds red d then fitGroup (groupOf cds red d) else none

/-! ### The spread evaluator -/

/-- A row of `bond_red_df` entering `merge_cds_into_bonds`. -/
structure BondRedRow where
  date : ℕ
  cusip : String
  issuer_cusip : String
  BOND_YIELD : ℚ
  CS : ℚ
  size_ig : Option ℚ
  size_jk : Option ℚ
  mat_days : ℚ
  redcode : String
deriving DecidableEq, Repr

/-- The par spread assigned to one bond row: when the row's
`(redcode, date)` key has a fitted curve, the curve evaluated at the row's
`mat_days`; otherwise `NaN` (`none`). -/
def parSpreadOf (curves : String → ℕ → Option Spline) (b : BondRedRow) : Option ℚ :=
  (curves b.redcode b.date).map fun s => evalSpline s b.mat_days

/-- `add_par_spread_vectorized`: every row gains a `par_spread` column. -/
def add_par_spread_vectorized (curves : String → ℕ → Option Spline)
    (bonds : List BondRedRow) : List (BondRedRow × Option ℚ) :=
  bonds.map fun b => (b, parSpreadOf curves b)

/-- The evaluated rows after `dropna(subset=["par_spread"])`. -/
def evalRows (curves : String → ℕ → Option Spline) (bonds : List BondRedRow) :
    List (BondRedRow × ℚ) :=
  (add_par_spread_vectorized curves bonds).filterMap fun p => p.2.map fun v => (p.1, v)

/-- A row of the final merged table. -/
structure OutRow where
  cusip : String
  date : ℕ
  mat_days : ℚ
  BOND_YIELD : ℚ
  CS : ℚ
  size_ig : Option ℚ
  size_jk : Option ℚ
  par_spread : ℚ
deriving DecidableEq, Repr

def projectOut (p : BondRedRow × ℚ) : OutRow :=
  ⟨p.1.cusip, p.1.date, p.1.mat_days, p.1.BOND_YIELD, p.1.CS, p.1.size_ig,
    p.1.size_jk, p.2⟩

/-- The redcodes appearing in some retained group (`red_set` built from
`filtered_cds_df`), used to pre-filter the bond table. -/
def retainedRedcodes (cds : List CDSQuote) : List String :=
  ((collapseMedian cds).filter fun q => 2 ≤ uniqueTenorCount cds q.redcode q.date).map
    fun q => q.redcode

/-- `merge_cds_into_bonds`: filter the CDS quotes to the bond dates, fit the
per-key curves, restrict bonds to retained redcodes, evaluate, drop rows
without a spread, project to the output columns and drop exact duplicate
rows (`safe_convert` is the identity in this typed model — no column holds
an array). -/
def merge_cds_into_bonds (bonds : List BondRedRow) (cds : List CDSQuote) :
    List OutRow :=
  let cdsF := cds.filter fun q => q.date ∈ bonds.map fun b => b.date
  let bondsF := bonds.filter fun b => b.redcode ∈ retainedRedcodes cdsF
  dedupFirst ((evalRows (fun r d => curveFor cdsF r d) bondsF).map projectOut)

/-! ## Basis Calculator — `process_final_product.process_cb_spread` -/

/-- A row of the final merged table as consumed by the basis calculator. -/
structure FinalRow where
  cusip : String
  date : ℕ
  mat_days : ℚ
  BOND_YIELD : ℚ
  CS : ℚ
  size_ig : Option ℚ
  size_jk : Option ℚ
  par_spread : ℚ
deriving DecidableEq, Repr

/-- A row with the derived basis columns added. -/
structure SpreadRow extends FinalRow where
  FR : ℚ
  CB : ℚ
  rfr : ℚ
deriving DecidableEq, Repr

/-- Modelled from the spec: `process_final_product.py` is imported by
`create_ftsfr_datasets.py` and exercised by
`test_process_final_product.test_process_cb_spread`, but the module itself
is not in the repository tree.  Spec §4.6 (and the unit test) give the exact
pointwise formulas: `FR = CS`, `CB = par_spread - FR`,
`rfr = (BOND_YIELD - CS - CB) * 100` — simple arithmetic over the existing
columns with no conditional branching.  The fourth derived column,
`c_rating` (a categorical label from the ig/jk flags), is not specified
beyond being categorical and no claim depends on its mapping, so it is
omitted here. -/
def process_cb_spread (rows : List FinalRow) : List SpreadRow :=
  rows.map fun r =>
    let fr := r.CS
    let cb := r.par_spread - fr
    ⟨r, fr, cb, (r.BOND_YIELD - r.CS - cb) * 100⟩

/-! ## Non-aggregated FTSFR output — `create_ftsfr_datasets.main`

The non-aggregated frame `non_agg_df` (per-bond, with the `rfr` value
column) is indexed by `(cusip, date)` and stacked to long format; pandas
`stack` drops missing values.  The result is renamed to
`(unique_id, ds, y)`, duplicate `(unique_id, ds)` pairs are counted and
dropped keeping the first occurrence, and the final `dropna()` is the
identity on the already-total rows. -/

structure NonAggRow where
  cusip : String
  date : ℕ
  rfr : Option ℚ
deriving DecidableEq, Repr

/-- `set_index(["cusip", "date"]).stack()` then the rename to
`(unique_id, ds, y)`: one long row per non-missing value. -/
def stackNonAgg (rows : List NonAggRow) : List (String × ℕ × ℚ) :=
  rows.filterMap fun r => r.rfr.map fun v => (r.cusip, r.date, v)

/-- `drop_duplicates(subset=["unique_id", "ds"])`, keeping first. -/
def dropDupKeysAux (seen : List (String × ℕ)) :
    List (String × ℕ × ℚ) → List (String × ℕ × ℚ)
  | [] => []
  | r :: rest =>
    if (r.1, r.2.1) ∈ seen then dropDupKeysAux seen rest
    else r :: dropDupKeysAux ((r.1, r.2.1) :: seen) rest

def dropDupKeys (rows : List (String × ℕ × ℚ)) : List (String × ℕ × ℚ) :=
  dropDupKeysAux [] rows

/-- The logged duplicate count: `duplicated(subset=["unique_id", "ds"]).sum()`
marks every occurrence after the first. -/
def numDuplicates (rows : List (String × ℕ × ℚ)) : ℕ :=
  rows.length - (dropDupKeys rows).length

/-- The non-aggregated output table of `create_ftsfr_datasets.main`. -/
def nonAggPipeline (rows : List NonAggRow) : List (String × ℕ × ℚ) :=
  dropDupKeys (stackNonAgg rows)

/-! ## Concrete scenario data (spec §8.7 and counterexample inputs) -/

/-- The CDS quotes of the end-to-end scenario of spec §8.7: entity `R1`,
one date, tenors 1Y/3Y/5Y/10Y with par spreads 0.03/0.04/0.05/0.06. -/
def scenarioCds : List CDSQuote :=
  [⟨0, "T", "R1", 3 / 100, "1Y", "SNRFOR", "USA", 2024⟩,
   ⟨0, "T", "R1", 4 / 100, "3Y", "SNRFOR", "USA", 2024⟩,
   ⟨0, "T", "R1", 5 / 100, "5Y", "SNRFOR", "USA", 2024⟩,
   ⟨0, "T", "R1", 6 / 100, "10Y", "SNRFOR", "USA", 2024⟩]

/-- The 3Y quote of the scenario, as it appears in the collapsed group. -/
def scenarioQuote3Y : CDSQuote :=
  ⟨0, "T", "R1", 4 / 100, "3Y", "SNRFOR", "USA", 2024⟩

/-- A group with two distinct tenor labels but a duplicated tenor day-count:
the same `(redcode, date, tenor)` under two different tickers survives the
median collapse as two rows, so the knot vector `[365, 365, 1095]` is not
strictly increasing and the spline constructor fails. -/
def cexCds : List CDSQuote :=
  [⟨0, "T1", "R", 1 / 100, "1Y", "SNRFOR", "USA", 2024⟩,
   ⟨0, "T2", "R", 2 / 100, "1Y", "SNRFOR", "USA", 2024⟩,
   ⟨0, "T1", "R", 3 / 100, "3Y", "SNRFOR", "USA", 2024⟩]

/-- A group with exactly one distinct tenor. -/
def oneTenorCds : List CDSQuote :=
  [⟨0, "T", "R", 1 / 100, "5Y", "SNRFOR", "USA", 2024⟩]

/-- The merged row of the basis-arithmetic test scenario (spec §8.3 /
`test_process_cb_spread`): yield 0.05, CS 0.03, par spread 0.04. -/
def basisTestRow : FinalRow :=
  ⟨"001957AM1", 0, 730, 5 / 100, 3 / 100, some 1, some 0, 4 / 100⟩

/-- A non-aggregated row used to exercise the duplicate-dropping path. -/
def dupNonAggRow : NonAggRow :=
  ⟨"001957AM1", 0, some 1⟩

/-- A scenario bond maturing at the 3Y knot (1095 days). -/
def bond1095 : BondRedRow :=
  ⟨0, "001957AM1", "001957", 5 / 100, 3 / 100, some 1, some 0, 1095, "R1"⟩

/-- A scenario bond maturing beyond the largest observed tenor (10Y =
3650 days). -/
def extrBond : BondRedRow :=
  ⟨0, "001957AM2", "001957", 6 / 100, 35 / 1000, some 0, some 1, 5000, "R1"⟩

/-! ## Theorems -/

/-- C5: `detect_column_format` raises the `SchemaError` exactly when the
bond table has neither the old-format column `CS` nor the new-format column
`cs`; the old format selects the months semantics (day-count factor 30), the
new format the years semantics (factor 365). -/
theorem detect_column_format_spec (cols : List String) :
    ((∃ e, detect_column_format cols = Except.error e) ↔ "CS" ∉ cols ∧ "cs" ∉ cols) ∧
    ("CS" ∈ cols →
      detect_column_format cols =
        Except.ok ⟨"old", "CS", "BOND_YIELD", "tmt", 30, true, none⟩) ∧
    ("CS" ∉ cols → "cs" ∈ cols →
      detect_column_format cols =
        Except.ok ⟨"new", "cs", "ytm", "tmat", 365, false, some "spc_rat"⟩) := by
  unfold detect_column_format
  by_cases h1 : "CS" ∈ cols <;> by_cases h2 : "cs" ∈ cols <;> simp [h1, h2]

/-- Witness for C5 at concrete column sets. -/
theorem detect_column_format_spec_witness :
    detect_column_format ["CS", "tmt"] =
      Except.ok ⟨"old", "CS", "BOND_YIELD", "tmt", 30, true, none⟩ ∧
    detect_column_format ["cs", "tmat"] =
      Except.ok ⟨"new", "cs", "ytm", "tmat", 365, false, some "spc_rat"⟩ ∧
    ∃ e, detect_column_format ["price"] = Except.error e :=
  ⟨(detect_column_format_spec ["CS", "tmt"]).2.1 (by decide),
   (detect_column_format_spec ["cs", "tmat"]).2.2 (by decide) (by decide),
   (detect_column_format_spec ["price"]).1.mpr (by decide)⟩

/-- C6: `derive_size_ig_jk` is the row-wise map of `derive_ig_jk_row`;
a present rating ≤ 10 yields `(size_ig, size_jk) = (1, 0)`, a present
rating > 10 yields `(0, 1)` — so the flags are mutually exclusive whenever
the rating is present — and a missing rating leaves both flags missing. -/
theorem derive_size_ig_jk_spec :
    (∀ ratings, derive_size_ig_jk ratings = ratings.map derive_ig_jk_row) ∧
    (∀ v : ℚ, v ≤ 10 → derive_ig_jk_row (some v) = (some 1, some 0)) ∧
    (∀ v : ℚ, 10 < v → derive_ig_jk_row (some v) = (some 0, some 1)) ∧
    derive_ig_jk_row none = (none, none) ∧
    (∀ v : ℚ, derive_ig_jk_row (some v) = (some 1, some 0) ∨
      derive_ig_jk_row (some v) = (some 0, some 1)) := by
  refine ⟨fun _ => rfl, fun v hv => ?_, fun v hv => ?_, rfl, fun v => ?_⟩
  · simp [derive_ig_jk_row, pandasLe, pandasGt, hv, not_lt_of_le hv]
  · simp [derive_ig_jk_row, pandasLe, pandasGt, hv, not_le_of_lt hv]
  · by_cases hv : v ≤ 10
    · exact Or.inl (by simp [derive_ig_jk_row, pandasLe, pandasGt, hv, not_lt_of_le hv])
    · exact Or.inr (by simp [derive_ig_jk_row, pandasLe, pandasGt, hv, le_of_not_le hv,
        lt_of_not_le hv])

/-- Witness for C6 at concrete ratings 5 (investment grade), 15 (junk). -/
theorem derive_size_ig_jk_spec_witness :
    derive_ig_jk_row (some 5) = (some 1, some 0) ∧
    derive_ig_jk_row (some 15) = (some 0, some 1) ∧
    derive_ig_jk_row none = (none, none) :=
  ⟨derive_size_ig_jk_spec.2.1 5 (by norm_num),
   derive_size_ig_jk_spec.2.2.1 15 (by norm_num),
   derive_size_ig_jk_spec.2.2.2.1⟩

/-- C10: `merge_treasuries_into_bonds` is independent of the `day_window`
parameter — the documented day tolerance never influences the output, which
is determined solely by exact maturity-date matching. -/
theorem merge_treasuries_day_window_irrelevant
    (bonds : List BondRow9) (treas : List TreasRow) (w1 w2 : ℕ) :
    merge_treasuries_into_bonds bonds treas w1 =
      merge_treasuries_into_bonds bonds treas w2 := rfl

/-- C9: membership in the treasury merge output — a bond/yield pair appears
iff the bond is in the input and the first-wins yield map hits its maturity
date exactly; the first treasury row carrying a yield for a date decides
that date's yield; bonds whose maturity matches no treasury date are
dropped. -/
theorem merge_treasuries_into_bonds_spec :
    (∀ bonds treas w (b : BondRow9) (v : ℚ),
      (b, v) ∈ merge_treasuries_into_bonds bonds treas w ↔
        b ∈ bonds ∧ treasYieldMap treas b.maturity = some v) ∧
    (∀ (pre : List TreasRow) (t : TreasRow) post d v,
      (∀ t2 ∈ pre, t2.tmatdt ≠ d) → t.tmatdt = d → t.treas_yld = some v →
      treasYieldMap (pre ++ t :: post) d = some v) ∧
    (∀ bonds treas w (b : BondRow9), treasYieldMap treas b.maturity = none →
      ∀ v, (b, v) ∉ merge_treasuries_into_bonds bonds treas w) := by
  have hmem : ∀ bonds treas w (b : BondRow9) (v : ℚ),
      (b, v) ∈ merge_treasuries_into_bonds bonds treas w ↔
        b ∈ bonds ∧ treasYieldMap treas b.maturity = some v := by
    intro bonds treas w b v
    simp only [merge_treasuries_into_bonds, List.mem_filterMap, List.mem_map]
    constructor
    · rintro ⟨p, ⟨b2, hb2, rfl⟩, hp⟩
      rcases Option.map_eq_some'.mp hp with ⟨v2, hv2, heq⟩
      cases heq
      exact ⟨hb2, hv2⟩
    · rintro ⟨hb, hv⟩
      exact ⟨(b, treasYieldMap treas b.maturity), ⟨b, hb, rfl⟩, by simp [hv]⟩
  refine ⟨hmem, ?_, ?_⟩
  · intro pre t post d v hpre ht hv
    induction pre with
    | nil => simp [treasYieldMap, List.filter_cons, ht, hv]
    | cons p ps ih =>
      have hne : ¬ p.tmatdt = d := hpre p (List.mem_cons_self p ps)
      have ih2 := ih fun t2 h2 => hpre t2 (List.mem_cons_of_mem p h2)
      simpa [treasYieldMap, List.filter_cons, hne] using ih2
  · intro bonds treas w b hnone v hin
    rcases (hmem bonds treas w b v).mp hin with ⟨_, hv⟩
    rw [hnone] at hv
    cases hv

/-- Witness for C9: a duplicate maturity date resolves to the first row's
yield, the matching bond keeps it, and an unmatched bond is dropped. -/
theorem merge_treasuries_into_bonds_spec_witness :
    treasYieldMap [⟨100, some 2, 0⟩, ⟨100, some 3, 0⟩] 100 = some 2 ∧
    ((⟨"c1", "A", 0, 100, 1, 1, 1, 1, 1⟩, (2 : ℚ)) ∈
      merge_treasuries_into_bonds [⟨"c1", "A", 0, 100, 1, 1, 1, 1, 1⟩]
        [⟨100, some 2, 0⟩, ⟨100, some 3, 0⟩] 3) ∧
    ∀ v, (⟨"c2", "B", 0, 999, 1, 1, 1, 1, 1⟩, v) ∉
      merge_treasuries_into_bonds [⟨"c2", "B", 0, 999, 1, 1, 1, 1, 1⟩]
        [⟨100, some 2, 0⟩, ⟨100, some 3, 0⟩] 3 := by
  refine ⟨merge_treasuries_into_bonds_spec.2.1 [] ⟨100, some 2, 0⟩ [⟨100, some 3, 0⟩]
      100 2 (by simp) rfl rfl, ?_, ?_⟩
  · exact (merge_treasuries_into_bonds_spec.1 _ _ 3 _ 2).mpr ⟨by simp, by decide⟩
  · exact merge_treasuries_into_bonds_spec.2.2 _ _ 3 _ (by decide)

/-- C7: the identifier linker takes the 6-character issuer key
(`"001957AM1"` yields `"001957"`), drops mapping rows with a missing
obligor or entity code, deduplicates to unique (issuer key, RED code)
pairs, and inner-joins: every output row's key carries a mapping row, so a
bond whose issuer key has no mapping contributes no output row. -/
theorem merge_red_code_into_bond_treas_spec :
    prepareRed [⟨some "001957AM1", some "R1"⟩] = [("001957", "R1")] ∧
    prepareRed [⟨some "001957AM1", some "R1"⟩, ⟨some "001957XY9", some "R1"⟩] =
      [("001957", "R1")] ∧
    prepareRed [⟨none, some "R1"⟩, ⟨some "001957AM1", none⟩] = [] ∧
    (∀ bonds reds (out : BondT × String × String),
      out ∈ merge_red_code_into_bond_treas bonds reds →
      out.2.1 = out.1.cusip.take 6 ∧ (out.2.1, out.2.2) ∈ prepareRed reds) ∧
    (∀ bonds reds (b : BondT), (∀ m ∈ prepareRed reds, m.1 ≠ b.cusip.take 6) →
      ∀ out ∈ merge_red_code_into_bond_treas bonds reds, out.1 ≠ b) := by
  have hkey : ∀ bonds reds (out : BondT × String × String),
      out ∈ merge_red_code_into_bond_treas bonds reds →
      out.2.1 = out.1.cusip.take 6 ∧ (out.2.1, out.2.2) ∈ prepareRed reds := by
    intro bonds reds out hout
    simp only [merge_red_code_into_bond_treas, List.mem_flatMap, List.mem_map,
      List.mem_filter] at hout
    rcases hout with ⟨b, _, m, ⟨hm, hmk⟩, rfl⟩
    exact ⟨by simpa using hmk, hm⟩
  refine ⟨by decide, by decide, by decide, hkey, ?_⟩
  intro bonds reds b hb out hout heq
  rcases hkey bonds reds out hout with ⟨h1, h2⟩
  rw [heq] at h1
  exact hb (out.2.1, out.2.2) h2 h1

/-- Witness for C7: a bond whose issuer key is unmapped yields no output
row. -/
theorem merge_red_code_into_bond_treas_spec_witness :
    ∀ out ∈ merge_red_code_into_bond_treas [⟨"999999XX1", 0, 1⟩]
      [⟨some "001957AM1", some "R1"⟩], out.1 ≠ ⟨"999999XX1", 0, 1⟩ :=
  merge_red_code_into_bond_treas_spec.2.2.2.2 [⟨"999999XX1", 0, 1⟩]
    [⟨some "001957AM1", some "R1"⟩] ⟨"999999XX1", 0, 1⟩ (by decide)

/-- C2: the basis calculator computes `FR = CS`, `CB = par_spread - FR` and
`rfr = (BOND_YIELD - CS - CB) * 100` pointwise on every row; on the test
row (yield 0.05, CS 0.03, par spread 0.04) this gives FR = 0.03, CB = 0.01,
rfr = 1. -/
theorem process_cb_spread_spec :
    (∀ rows (r : SpreadRow), r ∈ process_cb_spread rows →
      r.FR = r.CS ∧ r.CB = r.par_spread - r.FR ∧
        r.rfr = (r.BOND_YIELD - r.CS - r.CB) * 100) ∧
    (∀ r ∈ process_cb_spread [basisTestRow],
      r.FR = 3 / 100 ∧ r.CB = 1 / 100 ∧ r.rfr = 1) := by
  constructor
  · intro rows r hr
    simp only [process_cb_spread, List.mem_map] at hr
    rcases hr with ⟨row, _, rfl⟩
    exact ⟨rfl, rfl, rfl⟩
  · intro r hr
    simp only [process_cb_spread, basisTestRow, List.map_cons, List.map_nil,
      List.mem_singleton] at hr
    subst hr
    refine ⟨rfl, by norm_num, by norm_num⟩

/-- Witness for C2 at the concrete test row. -/
theorem process_cb_spread_spec_witness :
    ∃ r, r ∈ process_cb_spread [basisTestRow] ∧
      r.FR = 3 / 100 ∧ r.CB = 1 / 100 ∧ r.rfr = 1 := by
  refine ⟨⟨basisTestRow, 3 / 100, 1 / 100, 1⟩, ?_, ?_⟩
  · decide
  · exact process_cb_spread_spec.2 _ (by decide)

/-- Helper: `dropDupKeysAux` yields pairwise-distinct keys, none of them in
`seen`. -/
theorem dropDupKeysAux_spec (l : List (String × ℕ × ℚ)) :
    ∀ seen, ((dropDupKeysAux seen l).Pairwise fun a b => (a.1, a.2.1) ≠ (b.1, b.2.1)) ∧
      ∀ r ∈ dropDupKeysAux seen l, (r.1, r.2.1) ∉ seen := by
  induction l with
  | nil => intro seen; exact ⟨List.Pairwise.nil, by simp [dropDupKeysAux]⟩
  | cons r rest ih =>
    intro seen
    by_cases hmem : (r.1, r.2.1) ∈ seen
    · simp only [dropDupKeysAux, if_pos hmem]
      exact ih seen
    · simp only [dropDupKeysAux, if_neg hmem]
      obtain ⟨hpw, hnot⟩ := ih ((r.1, r.2.1) :: seen)
      refine ⟨List.Pairwise.cons ?_ hpw, ?_⟩
      · intro b hb hkeq
        exact hnot b hb (hkeq ▸ List.mem_cons_self _ _)
      · intro s hs
        rcases List.mem_cons.mp hs with rfl | hs2
        · exact hmem
        · exact fun hsn => hnot s hs2 (List.mem_cons_of_mem _ hsn)

/-- Helper: deduplication never lengthens the list. -/
theorem dropDupKeysAux_length_le (l : List (String × ℕ × ℚ)) :
    ∀ seen, (dropDupKeysAux seen l).length ≤ l.length := by
  induction l with
  | nil => intro seen; simp [dropDupKeysAux]
  | cons r rest ih =>
    intro seen
    by_cases hmem : (r.1, r.2.1) ∈ seen
    · simp only [dropDupKeysAux, if_pos hmem]
      exact Nat.le_succ_of_le (ih seen)
    · simp only [dropDupKeysAux, if_neg hmem, List.length_cons]
      exact Nat.succ_le_succ (ih _)

/-- C8: for every input, the non-aggregated output table has no repeated
`(unique_id, ds)` pair; the logged duplicate count plus the output length
recovers the stacked length; and a concrete input with exact duplicate
source rows is deduplicated to a single output row with count 1, without
aborting. -/
theorem nonagg_no_duplicate_keys :
    (∀ rows : List NonAggRow,
      ((nonAggPipeline rows).Pairwise fun a b => (a.1, a.2.1) ≠ (b.1, b.2.1)) ∧
      numDuplicates (stackNonAgg rows) + (nonAggPipeline rows).length =
        (stackNonAgg rows).length) ∧
    nonAggPipeline [dupNonAggRow, dupNonAggRow] = [("001957AM1", 0, 1)] ∧
    numDuplicates (stackNonAgg [dupNonAggRow, dupNonAggRow]) = 1 := by
  refine ⟨fun rows => ⟨(dropDupKeysAux_spec _ []).1, ?_⟩, by decide, by decide⟩
  have h := dropDupKeysAux_length_le (stackNonAgg rows) []
  unfold numDuplicates nonAggPipeline dropDupKeys at *
  omega

/-! ### Spline lemmas -/

/-- A cubic piece passes through its left endpoint, for any second
derivatives. -/
theorem evalCubic_left (x0 y0 x1 y1 m0 m1 : ℚ) :
    evalCubic x0 y0 x1 y1 m0 m1 x0 = y0 := by
  unfold evalCubic
  ring

/-- A cubic piece passes through its right endpoint, for any second
derivatives, provided the knots differ. -/
theorem evalCubic_right (x0 y0 x1 y1 m0 m1 : ℚ) (hne : x0 ≠ x1) :
    evalCubic x0 y0 x1 y1 m0 m1 x1 = y1 := by
  unfold evalCubic
  have h : x1 - x0 ≠ 0 := sub_ne_zero.mpr (Ne.symm hne)
  field_simp
  ring

/-- In a strictly increasing chain, the head is below every later
element. -/
theorem chain_head_lt : ∀ (l : List ℚ) (a : ℚ),
    List.Chain' (fun u v : ℚ => u < v) (a :: l) → ∀ x ∈ l, a < x := by
  intro l
  induction l with
  | nil => intro a _ x hx; cases hx
  | cons b tl ih =>
    intro a hch x hx
    rcases List.chain'_cons.mp hch with ⟨hab, hbt⟩
    rcases List.mem_cons.mp hx with rfl | hx2
    · exact hab
    · exact lt_trans hab (ih b hbt x hx2)

/-- In a strictly increasing chain, the head is at most the last element. -/
theorem chain_head_le_lastD : ∀ (l : List ℚ) (a : ℚ),
    List.Chain' (fun u v : ℚ => u < v) (a :: l) → a ≤ lastD 0 (a :: l) := by
  intro l
  induction l with
  | nil => intro a _; exact le_refl a
  | cons b tl ih =>
    intro a hch
    rcases List.chain'_cons.mp hch with ⟨hab, hbt⟩
    calc a ≤ b := le_of_lt hab
    _ ≤ lastD 0 (b :: tl) := ih b hbt

/-- The executable strictly-increasing test agrees with `Chain'`. -/
theorem strictIncBool_iff : ∀ l : List ℚ,
    strictIncBool l = true ↔ List.Chain' (fun u v : ℚ => u < v) l := by
  intro l
  induction l with
  | nil => simp [strictIncBool]
  | cons x tl ih =>
    rcases tl with _ | ⟨y, r⟩
    · simp [strictIncBool]
    · simp [strictIncBool, Bool.and_eq_true, decide_eq_true_eq, List.chain'_cons, ih]

/-- Interval selection + pass-through: on strictly increasing knots,
piecewise evaluation at any knot returns that knot's value — for arbitrary
second derivatives. -/
theorem evalPieces_passThrough : ∀ (l : List ((ℚ × ℚ) × ℚ)),
    List.Chain' (fun u v : ℚ => u < v) (l.map fun e => e.1.1) →
    ∀ e ∈ l, evalPieces l e.1.1 = e.1.2 := by
  intro l
  induction l with
  | nil => intro _ e he; cases he
  | cons e0 tl ih =>
    intro hch e he
    rcases tl with _ | ⟨e1, rest⟩
    · rcases List.mem_singleton.mp he with rfl
      obtain ⟨⟨x0, y0⟩, m0⟩ := e
      simp [evalPieces]
    · obtain ⟨⟨x0, y0⟩, m0⟩ := e0
      obtain ⟨⟨x1, y1⟩, m1⟩ := e1
      simp only [List.map_cons] at hch
      rcases List.chain'_cons.mp hch with ⟨h01, htail⟩
      have hstep : ∀ t : ℚ, evalPieces (((x0, y0), m0) :: ((x1, y1), m1) :: rest) t =
          if t < x1 ∨ rest = [] then evalCubic x0 y0 x1 y1 m0 m1 t
          else evalPieces (((x1, y1), m1) :: rest) t := fun _ => rfl
      rcases List.mem_cons.mp he with rfl | he2
      · rw [hstep, if_pos (Or.inl h01)]
        exact evalCubic_left x0 y0 x1 y1 m0 m1
      · have hx1e : x1 ≤ e.1.1 := by
          rcases List.mem_cons.mp he2 with rfl | he3
          · exact le_refl _
          · exact le_of_lt (chain_head_lt _ _ htail e.1.1
              (List.mem_map.mpr ⟨e, he3, rfl⟩))
        rcases rest with _ | ⟨r0, rs⟩
        · rcases List.mem_singleton.mp he2 with rfl
          rw [hstep, if_pos (Or.inr rfl)]
          exact evalCubic_right x0 y0 x1 y1 m0 m1 (ne_of_lt h01)
        · rw [hstep, if_neg (by simp [not_or, not_lt, hx1e])]
          exact ih (by simpa using htail) e he2

/-- Below the observed range, evaluation is the first piece's cubic. -/
theorem evalPieces_below (x0 y0 x1 y1 m0 m1 : ℚ) (rest : List ((ℚ × ℚ) × ℚ))
    (t : ℚ) (h01 : x0 < x1) (ht : t < x0) :
    evalPieces (((x0, y0), m0) :: ((x1, y1), m1) :: rest) t =
      evalCubic x0 y0 x1 y1 m0 m1 t := by
  simp only [evalPieces]
  rw [if_pos (Or.inl (lt_trans ht h01))]

/-- Above the observed range, evaluation is the last piece's cubic. -/
theorem evalPieces_above : ∀ (l : List ((ℚ × ℚ) × ℚ)), 2 ≤ l.length →
    List.Chain' (fun u v : ℚ => u < v) (l.map fun e => e.1.1) →
    ∀ t : ℚ, lastD 0 (l.map fun e => e.1.1) < t →
    evalPieces l t = (lastD (fun _ => 0) (piecesOf l)) t := by
  intro l
  induction l with
  | nil => intro h; simp at h
  | cons e0 tl ih =>
    intro hlen hch t ht
    rcases tl with _ | ⟨e1, rest⟩
    · simp at hlen
    · obtain ⟨⟨x0, y0⟩, m0⟩ := e0
      obtain ⟨⟨x1, y1⟩, m1⟩ := e1
      simp only [List.map_cons] at hch ht
      rcases List.chain'_cons.mp hch with ⟨h01, htail⟩
      have hstep : evalPieces (((x0, y0), m0) :: ((x1, y1), m1) :: rest) t =
          if t < x1 ∨ rest = [] then evalCubic x0 y0 x1 y1 m0 m1 t
          else evalPieces (((x1, y1), m1) :: rest) t := rfl
      rcases rest with _ | ⟨r0, rs⟩
      · rw [hstep, if_pos (Or.inr rfl)]
        simp [piecesOf, lastD]
      · have hlast : lastD 0 (x0 :: x1 :: ((r0 :: rs).map fun e => e.1.1)) =
            lastD 0 (x1 :: ((r0 :: rs).map fun e => e.1.1)) := by
          simp [lastD]
        have hx1t : x1 < t := by
          have h1 := chain_head_le_lastD _ _ htail
          rw [hlast] at ht
          exact lt_of_le_of_lt h1 ht
        rw [hstep, if_neg (by simp [not_or, not_lt, le_of_lt hx1t])]
        have hrec := ih (by simp) (by simpa using htail) t
          (by rw [hlast] at ht; simpa using ht)
        rw [hrec]
        have hpc : piecesOf (((x0, y0), m0) :: ((x1, y1), m1) :: r0 :: rs) =
            (fun t => evalCubic x0 y0 x1 y1 m0 m1 t) ::
              piecesOf (((x1, y1), m1) :: r0 :: rs) := rfl
        rw [hpc]
        have hpc2 : ∃ p ps, piecesOf (((x1, y1), m1) :: r0 :: rs) = p :: ps := by
          obtain ⟨⟨xr, yr⟩, mr⟩ := r0
          exact ⟨_, _, rfl⟩
        rcases hpc2 with ⟨p, ps, hps⟩
        rw [hps]
        simp [lastD]

/-- Membership is preserved by sorted insertion. -/
theorem mem_insertPair (p a : ℚ × ℚ) : ∀ l : List (ℚ × ℚ),
    a ∈ insertPair p l ↔ a = p ∨ a ∈ l := by
  intro l
  induction l with
  | nil => simp [insertPair]
  | cons q r ih =>
    by_cases h : p.1 ≤ q.1
    · simp [insertPair, h, List.mem_cons]
    · simp [insertPair, h, List.mem_cons, ih]
      tauto

/-- Membership is preserved by the knot sort. -/
theorem mem_sortPairs (a : ℚ × ℚ) : ∀ l : List (ℚ × ℚ),
    a ∈ sortPairs l ↔ a ∈ l := by
  intro l
  induction l with
  | nil => simp [sortPairs]
  | cons p r ih => simp [sortPairs, mem_insertPair, ih, List.mem_cons]

theorem insertPair_length (p : ℚ × ℚ) : ∀ l : List (ℚ × ℚ),
    (insertPair p l).length = l.length + 1 := by
  intro l
  induction l with
  | nil => rfl
  | cons q r ih =>
    by_cases h : p.1 ≤ q.1
    · simp [insertPair, h]
    · simp [insertPair, h, ih]

theorem sortPairs_length : ∀ l : List (ℚ × ℚ),
    (sortPairs l).length = l.length := by
  intro l
  induction l with
  | nil => rfl
  | cons p r ih => simp [sortPairs, insertPair_length, ih]

/-- A group row with a mapped tenor contributes its (day count, spread)
point to a successful `tenorPts`. -/
theorem tenorPts_mem : ∀ (g : List CDSQuote) (pts : List (ℚ × ℚ)) (q : CDSQuote)
    (td : ℚ), tenorPts g = some pts → q ∈ g → tenor_to_days q.tenor = some td →
    (td, q.parspread) ∈ pts := by
  intro g
  induction g with
  | nil => intro pts q td _ hq; cases hq
  | cons q0 r ih =>
    intro pts q td h hq htd
    cases h0 : tenor_to_days q0.tenor with
    | none =>
      rw [show tenorPts (q0 :: r) =
          (match tenor_to_days q0.tenor, tenorPts r with
            | some d, some ps => some ((d, q0.parspread) :: ps)
            | _, _ => none) from rfl, h0] at h
      cases hr : tenorPts r <;> rw [hr] at h <;> cases h
    | some d0 =>
      cases h1 : tenorPts r with
      | none =>
        rw [show tenorPts (q0 :: r) =
            (match tenor_to_days q0.tenor, tenorPts r with
              | some d, some ps => some ((d, q0.parspread) :: ps)
              | _, _ => none) from rfl, h0, h1] at h
        cases h
      | some ps =>
        rw [show tenorPts (q0 :: r) =
            (match tenor_to_days q0.tenor, tenorPts r with
              | some d, some ps => some ((d, q0.parspread) :: ps)
              | _, _ => none) from rfl, h0, h1] at h
        injection h with h2
        subst h2
        rcases List.mem_cons.mp hq with rfl | hq2
        · rw [h0] at htd
          injection htd with h3
          subst h3
          exact List.mem_cons_self _ _
        · exact List.mem_cons_of_mem _ (ih ps q td h1 hq2 htd)

/-- A successful `tenorPts` has one point per group row. -/
theorem tenorPts_length : ∀ (g : List CDSQuote) (pts : List (ℚ × ℚ)),
    tenorPts g = some pts → pts.length = g.length := by
  intro g
  induction g with
  | nil => intro pts h; cases h; rfl
  | cons q0 r ih =>
    intro pts h
    cases h0 : tenor_to_days q0.tenor with
    | none =>
      rw [show tenorPts (q0 :: r) =
          (match tenor_to_days q0.tenor, tenorPts r with
            | some d, some ps => some ((d, q0.parspread) :: ps)
            | _, _ => none) from rfl, h0] at h
      cases hr : tenorPts r <;> rw [hr] at h <;> cases h
    | some d0 =>
      cases h1 : tenorPts r with
      | none =>
        rw [show tenorPts (q0 :: r) =
            (match tenor_to_days q0.tenor, tenorPts r with
              | some d, some ps => some ((d, q0.parspread) :: ps)
              | _, _ => none) from rfl, h0, h1] at h
        cases h
      | some ps =>
        rw [show tenorPts (q0 :: r) =
            (match tenor_to_days q0.tenor, tenorPts r with
              | some d, some ps => some ((d, q0.parspread) :: ps)
              | _, _ => none) from rfl, h0, h1] at h
        injection h with h2
        subst h2
        simp [ih ps h1]

/-- An element of the shorter list pairs with some element in a zip. -/
theorem exists_mem_zip {α β : Type} : ∀ (l1 : List α) (l2 : List β) (a : α),
    a ∈ l1 → l1.length ≤ l2.length → ∃ b, (a, b) ∈ l1.zip l2 := by
  intro l1
  induction l1 with
  | nil => intro l2 a ha; cases ha
  | cons x tl ih =>
    intro l2 a ha hlen
    rcases l2 with _ | ⟨y, l2t⟩
    · simp at hlen
    · rcases List.mem_cons.mp ha with rfl | ha2
      · exact ⟨y, List.mem_cons_self _ _⟩
      · rcases ih l2t a ha2 (by simpa using Nat.le_of_succ_le_succ (by simpa using hlen))
          with ⟨b, hb⟩
        exact ⟨b, List.mem_cons_of_mem _ hb⟩

theorem diffs_length : ∀ l : List ℚ, (diffs l).length = l.length - 1 := by
  intro l
  induction l with
  | nil => rfl
  | cons x tl ih =>
    rcases tl with _ | ⟨y, r⟩
    · rfl
    · simp only [diffs, List.length_cons] at ih ⊢
      omega

theorem slopes_length : ∀ l : List (ℚ × ℚ), (slopes l).length = l.length - 1 := by
  intro l
  induction l with
  | nil => rfl
  | cons p tl ih =>
    rcases tl with _ | ⟨q, r⟩
    · obtain ⟨x, y⟩ := p
      rfl
    · obtain ⟨x0, y0⟩ := p
      obtain ⟨x1, y1⟩ := q
      simp only [slopes, List.length_cons] at ih ⊢
      omega

theorem buildRows_length : ∀ (hs ss : List ℚ), ss.length = hs.length →
    (buildRows hs ss).length = hs.length - 1 := by
  intro hs
  induction hs with
  | nil => intro ss _; rfl
  | cons h0 hr ih =>
    intro ss hlen
    rcases hr with _ | ⟨h1, hr2⟩
    · rcases ss with _ | ⟨s0, st⟩
      · cases hlen
      · rcases st with _ | ⟨s1, st2⟩
        · rfl
        · simp at hlen
    · rcases ss with _ | ⟨s0, st⟩
      · simp at hlen
      · rcases st with _ | ⟨s1, st2⟩
        · simp at hlen
        · simp only [buildRows, List.length_cons] at ih ⊢
          have := ih (s1 :: st2) (by simpa using hlen)
          omega

theorem sweep_length : ∀ (rows : List (ℚ × ℚ × ℚ × ℚ)) (cp dp : ℚ),
    (sweep cp dp rows).length = rows.length := by
  intro rows
  induction rows with
  | nil => intro cp dp; rfl
  | cons r rest ih =>
    intro cp dp
    obtain ⟨a, b, c, d⟩ := r
    simp only [sweep, List.length_cons]
    rw [ih]

theorem backsub_length : ∀ (l : List (ℚ × ℚ)) (x : ℚ),
    (backsub x l).length = l.length := by
  intro l
  induction l with
  | nil => intro x; rfl
  | cons r rest ih =>
    intro x
    obtain ⟨c, d⟩ := r
    simp only [backsub, List.length_cons]
    rw [ih]

/-- The solved second-derivative vector is never shorter than the knot
vector, so zipping loses no knot. -/
theorem solveNaturalM_length_ge (pts : List (ℚ × ℚ)) :
    pts.length ≤ (solveNaturalM pts).length := by
  unfold solveNaturalM
  have hd := diffs_length (pts.map Prod.fst)
  have hs := slopes_length pts
  have hb := buildRows_length (diffs (pts.map Prod.fst)) (slopes pts)
    (by rw [hd, hs, List.length_map])
  have hsw := sweep_length (buildRows (diffs (pts.map Prod.fst)) (slopes pts)) 0 0
  have hbs := backsub_length (sweep 0 0
    (buildRows (diffs (pts.map Prod.fst)) (slopes pts))).reverse 0
  simp only [List.length_cons, List.length_append, List.length_reverse,
    List.length_map] at *
  omega

/-- Inversion of the curve fitter: a fitted curve comes from a retained
group whose mapped, sorted points are at least two with strictly increasing
knots, and the curve is the natural spline through them. -/
theorem curveFor_inv {cds : List CDSQuote} {red : String} {d : ℕ} {spl : Spline}
    (h : curveFor cds red d = some spl) :
    2 ≤ uniqueTenorCount cds red d ∧
    ∃ pts, tenorPts (groupOf cds red d) = some pts ∧
      2 ≤ (sortPairs pts).length ∧
      List.Chain' (fun u v : ℚ => u < v) ((sortPairs pts).map Prod.fst) ∧
      spl = mkSpline (sortPairs pts) := by
  unfold curveFor at h
  split at h
  case isFalse => cases h
  case isTrue hcnt =>
    unfold fitGroup at h
    refine ⟨hcnt, ?_⟩
    cases hm : tenorPts (groupOf cds red d) with
    | none => rw [hm] at h; cases h
    | some pts =>
      rw [hm] at h
      simp only at h
      split at h
      case isTrue hcond =>
        injection h with h2
        exact ⟨pts, rfl, hcond.1, (strictIncBool_iff _).mp hcond.2, h2.symm⟩
      case isFalse => cases h

/-- Helper: the knot abscissas of the fitted spline's point list are the
sorted knots. -/
theorem zip_knots_map (sp : List (ℚ × ℚ)) :
    ((sp.zip (solveNaturalM sp)).map fun e => e.1.1) = sp.map Prod.fst := by
  rw [show (fun (e : (ℚ × ℚ) × ℚ) => e.1.1) = Prod.fst ∘ Prod.fst from rfl,
    ← List.map_map, List.map_fst_zip _ _ (solveNaturalM_length_ge sp)]

/-- C1: for every (entity code, date) group whose retained points yield a
fitted curve, the curve evaluated at any group row's tenor day-count
returns exactly that row's (median-collapsed) par spread.  Exactness is
over `ℚ`, so the floating-point tolerance of the spec is met with zero
error. -/
theorem cds_curve_pass_through (cds : List CDSQuote) (red : String) (d : ℕ)
    (spl : Spline) (h : curveFor cds red d = some spl) :
    ∀ q ∈ groupOf cds red d, ∀ td : ℚ, tenor_to_days q.tenor = some td →
      evalSpline spl td = q.parspread := by
  intro q hq td htd
  obtain ⟨hcnt, pts, hpts, hlen, hch, rfl⟩ := curveFor_inv h
  have hmem : (td, q.parspread) ∈ sortPairs pts :=
    (mem_sortPairs _ _).mpr (tenorPts_mem _ _ _ _ hpts hq htd)
  obtain ⟨m, hm⟩ := exists_mem_zip _ _ _ hmem (solveNaturalM_length_ge (sortPairs pts))
  have hch2 : List.Chain' (fun u v : ℚ => u < v)
      (((sortPairs pts).zip (solveNaturalM (sortPairs pts))).map fun e => e.1.1) := by
    rw [zip_knots_map]
    exact hch
  exact evalPieces_passThrough _ hch2 ((td, q.parspread), m) hm

/-- Witness for C1: the spec §8.7 scenario — CDS quotes at tenors
1Y/3Y/5Y/10Y with spreads 0.03/0.04/0.05/0.06 — yields a fitted curve for
(`R1`, date) whose value at the 3Y bond maturity 1095 is exactly 0.04, and
the bond at `mat_days` 1095 receives `par_spread` 0.04 exactly. -/
theorem cds_curve_pass_through_witness :
    ∃ s, curveFor scenarioCds "R1" 0 = some s ∧ evalSpline s 1095 = 4 / 100 ∧
      parSpreadOf (fun r dd => curveFor scenarioCds r dd) bond1095 = some (4 / 100) := by
  refine ⟨(curveFor scenarioCds "R1" 0).get (by decide), (Option.some_get _).symm, ?_, ?_⟩
  · exact cds_curve_pass_through _ _ _ _ (Option.some_get _).symm scenarioQuote3Y
      (by decide) 1095 (by decide)
  · have heq : evalSpline ((curveFor scenarioCds "R1" 0).get (by decide)) 1095 = 4 / 100 :=
      cds_curve_pass_through _ _ _ _ (Option.some_get _).symm scenarioQuote3Y
        (by decide) 1095 (by decide)
    unfold parSpreadOf
    show Option.map (fun s => evalSpline s bond1095.mat_days)
      (curveFor scenarioCds "R1" 0) = some (4 / 100)
    rw [(Option.some_get (show (curveFor scenarioCds "R1" 0).isSome from by decide)).symm]
    simp only [Option.map_some']
    rw [show bond1095.mat_days = (1095 : ℚ) from rfl, heq]

/-- Counterexample to C3 as stated: a group can have 2 distinct tenor
values after median-collapsing and still be given no curve.  In `cexCds`
the tenor `1Y` appears under two tickers, so the collapse (which groups by
every column except the spread) keeps both rows; the knot vector
`[365, 365, 1095]` is not strictly increasing and the spline constructor
fails, which the fitter's bare `except` turns into "no curve" plus the
aggregate warning. -/
theorem curve_two_tenors_counterexample :
    2 ≤ uniqueTenorCount cexCds "R" 0 ∧ curveFor cexCds "R" 0 = none := by
  constructor
  · decide
  · decide

/-- C3 (amended): a group is given a curve iff it has ≥ 2 distinct tenor
values after median-collapsing AND its collapsed rows map to strictly
increasing tenor day-counts (no duplicated tenor across tickers/tiers, no
unmapped tenor label); a group with at most 1 distinct tenor gets no curve;
and bonds under a key with no curve contribute zero rows to the evaluated
output. -/
theorem curve_exists_iff_amended :
    (∀ (cds : List CDSQuote) (red : String) (d : ℕ),
      (∃ s, curveFor cds red d = some s) ↔
        (2 ≤ uniqueTenorCount cds red d ∧
          ∃ pts, tenorPts (groupOf cds red d) = some pts ∧
            strictIncBool ((sortPairs pts).map Prod.fst) = true)) ∧
    (∀ (cds : List CDSQuote) (red : String) (d : ℕ),
      uniqueTenorCount cds red d ≤ 1 → curveFor cds red d = none) ∧
    (∀ (curves : String → ℕ → Option Spline) (bonds : List BondRedRow)
      (red : String) (d : ℕ), curves red d = none →
      (evalRows curves bonds).filter
        (fun p => decide (p.1.redcode = red ∧ p.1.date = d)) = []) := by
  refine ⟨fun cds red d => ⟨?_, ?_⟩, fun cds red d hle => ?_, ?_⟩
  · rintro ⟨s, hs⟩
    obtain ⟨hcnt, pts, hpts, _, hch, _⟩ := curveFor_inv hs
    exact ⟨hcnt, pts, hpts, (strictIncBool_iff _).mpr hch⟩
  · rintro ⟨hcnt, pts, hpts, hsib⟩
    have h2 : 2 ≤ (sortPairs pts).length := by
      have hded : uniqueTenorCount cds red d ≤ (groupOf cds red d).length := by
        unfold uniqueTenorCount
        calc ((groupOf cds red d).map fun q => q.tenor).dedup.length
            ≤ ((groupOf cds red d).map fun q => q.tenor).length :=
              (List.dedup_sublist _).length_le
        _ = (groupOf cds red d).length := List.length_map _ _
      rw [sortPairs_length, tenorPts_length _ _ hpts]
      omega
    refine ⟨mkSpline (sortPairs pts), ?_⟩
    unfold curveFor
    rw [if_pos hcnt]
    unfold fitGroup
    rw [hpts]
    simp only
    rw [if_pos ⟨h2, hsib⟩]
  · unfold curveFor
    rw [if_neg (by omega)]
  · intro curves bonds red d hnone
    induction bonds with
    | nil => rfl
    | cons b rest ih =>
      cases hC : curves b.redcode b.date with
      | none =>
        have hstep : evalRows curves (b :: rest) = evalRows curves rest := by
          unfold evalRows add_par_spread_vectorized parSpreadOf
          simp [List.filterMap_cons, hC]
        rw [hstep]
        exact ih
      | some s =>
        have hstep : evalRows curves (b :: rest) =
            (b, evalSpline s b.mat_days) :: evalRows curves rest := by
          unfold evalRows add_par_spread_vectorized parSpreadOf
          simp [List.filterMap_cons, hC]
        rw [hstep, List.filter_cons]
        by_cases hk : b.redcode = red ∧ b.date = d
        · rw [hk.1, hk.2] at hC
          rw [hnone] at hC
          cases hC
        · simp only [hk, decide_False, Bool.false_eq_true, if_false]
          exact ih

/-- Witness for C3 (amended): the single-tenor group gets no curve; the
§8.7 scenario group (2+ distinct tenors, strictly increasing day-counts)
gets one; and a key without a curve contributes zero evaluated rows. -/
theorem curve_exists_iff_amended_witness :
    curveFor oneTenorCds "R" 0 = none ∧
    (∃ s, curveFor scenarioCds "R1" 0 = some s) ∧
    (evalRows (fun _ _ => none) [bond1095]).filter
      (fun p => decide (p.1.redcode = "R1" ∧ p.1.date = 0)) = [] := by
  refine ⟨curve_exists_iff_amended.2.1 oneTenorCds "R" 0 (by decide), ?_, ?_⟩
  · exact (curve_exists_iff_amended.1 scenarioCds "R1" 0).mpr
      ⟨by decide, [(365, 3 / 100), (1095, 4 / 100), (1825, 5 / 100), (3650, 6 / 100)],
        by decide, by decide⟩
  · exact curve_exists_iff_amended.2.2 (fun _ _ => none) [bond1095] "R1" 0 rfl

/-- Below the observed range the whole evaluation is the first piece's
cubic (default-free form over a ≥2-element list). -/
theorem evalPieces_belowD : ∀ (l : List ((ℚ × ℚ) × ℚ)), 2 ≤ l.length →
    List.Chain' (fun u v : ℚ => u < v) (l.map fun e => e.1.1) →
    ∀ t : ℚ, t < (l.map fun e => e.1.1).headD 0 →
    evalPieces l t = ((piecesOf l).headD fun _ => 0) t := by
  intro l hlen hch t ht
  rcases l with _ | ⟨e0, tl⟩
  · simp at hlen
  rcases tl with _ | ⟨e1, rest⟩
  · simp at hlen
  obtain ⟨⟨x0, y0⟩, m0⟩ := e0
  obtain ⟨⟨x1, y1⟩, m1⟩ := e1
  simp only [List.map_cons, List.headD_cons] at hch ht
  rcases List.chain'_cons.mp hch with ⟨h01, _⟩
  rw [evalPieces_below x0 y0 x1 y1 m0 m1 rest t h01 ht]
  rfl

/-- C4: for every bond whose (entity code, date) key has a fitted curve,
the spread evaluator assigns `some` value at every maturity input — and
outside the observed tenor range the value is the boundary cubic
polynomial's natural extension, not an error. -/
theorem curve_extrapolation_total (cds : List CDSQuote) (red : String) (d : ℕ)
    (spl : Spline) (h : curveFor cds red d = some spl) :
    (∀ b : BondRedRow, b.redcode = red → b.date = d →
      parSpreadOf (fun r dd => curveFor cds r dd) b =
        some (evalSpline spl b.mat_days)) ∧
    ∀ t : ℚ,
      (t < headKnot spl → evalSpline spl t = firstPiecePoly spl t) ∧
      (lastKnot spl < t → evalSpline spl t = lastPiecePoly spl t) := by
  constructor
  · intro b h1 h2
    unfold parSpreadOf
    show Option.map (fun s => evalSpline s b.mat_days) (curveFor cds b.redcode b.date) =
      some (evalSpline spl b.mat_days)
    rw [h1, h2, h]
    rfl
  · intro t
    obtain ⟨hcnt, pts, hpts, hlen, hch, rfl⟩ := curveFor_inv h
    have hzlen := solveNaturalM_length_ge (sortPairs pts)
    have hlen2 : 2 ≤ ((sortPairs pts).zip (solveNaturalM (sortPairs pts))).length := by
      rw [List.length_zip]
      omega
    have hch2 : List.Chain' (fun u v : ℚ => u < v)
        (((sortPairs pts).zip (solveNaturalM (sortPairs pts))).map fun e => e.1.1) := by
      rw [zip_knots_map]
      exact hch
    exact ⟨fun ht => evalPieces_belowD _ hlen2 hch2 t ht,
      fun ht => evalPieces_above _ hlen2 hch2 t ht⟩

/-- Witness for C4: under the §8.7 scenario curve, a bond maturing at 5000
days (beyond the 10Y knot 3650) still receives a spread — the last piece's
natural extension — and a query at 100 days (below the 1Y knot 365) returns
the first piece's natural extension. -/
theorem curve_extrapolation_total_witness :
    ∃ s, curveFor scenarioCds "R1" 0 = some s ∧
      parSpreadOf (fun r dd => curveFor scenarioCds r dd) extrBond =
        some (evalSpline s (5000 : ℚ)) ∧
      evalSpline s 5000 = lastPiecePoly s 5000 ∧
      evalSpline s 100 = firstPiecePoly s 100 := by
  refine ⟨(curveFor scenarioCds "R1" 0).get (by decide), (Option.some_get _).symm,
    ?_, ?_, ?_⟩
  · exact (curve_extrapolation_total _ _ _ _ (Option.some_get _).symm).1 extrBond rfl rfl
  · exact ((curve_extrapolation_total _ _ _ _ (Option.some_get _).symm).2 5000).2 (by decide)
  · exact ((curve_extrapolation_total _ _ _ _ (Option.some_get _).symm).2 100).1 (by decide)

end CdsBondBasis
